import Mathlib

/-!
Verification of the meshanina key/value store against its specification.

The development shallowly embeds the flat open-addressed hash map of
`src/mapping.rs` together with the record codec of `src/legacy/record.rs`
(the layer the specification describes), and the HAMT implementation of
`src/table.rs` / `src/record.rs`.  Machine integers are modelled as `Nat`
with explicit reduction `% 2^w` at the points where the Rust code
truncates; fallible or potentially non-terminating loops take explicit
fuel and return `Option`.
-/

namespace Meshanina

/-! ## Little-endian byte strings -/

/-- `n`-byte little-endian encoding of `x` (as `u32::to_le_bytes`,
`u64::to_le_bytes`, `U256::to_le_bytes` do, truncating at `256^n`). -/
def natToLeBytes : Nat → Nat → List Nat
  | 0, _ => []
  | n + 1, x => x % 256 :: natToLeBytes n (x / 256)

/-- Decoding of a little-endian byte string (`from_le_bytes`). -/
def leBytesToNat (bs : List Nat) : Nat :=
  bs.foldr (fun b acc => b + 256 * acc) 0

theorem natToLeBytes_length (n x : Nat) : (natToLeBytes n x).length = n := by
  induction n generalizing x with
  | zero => rfl
  | succ n ih => simp [natToLeBytes, ih]

theorem leBytesToNat_natToLeBytes (n x : Nat) :
    leBytesToNat (natToLeBytes n x) = x % 256 ^ n := by
  induction n generalizing x with
  | zero => simp [natToLeBytes, leBytesToNat, Nat.mod_one]
  | succ n ih =>
    have h : leBytesToNat (natToLeBytes (n + 1) x)
        = x % 256 + 256 * leBytesToNat (natToLeBytes n (x / 256)) := rfl
    rw [h, ih, pow_succ', Nat.mod_mul]

theorem leBytesToNat_foldr_init (a : List Nat) (init : Nat) :
    a.foldr (fun b acc => b + 256 * acc) init
      = leBytesToNat a + 256 ^ a.length * init := by
  induction a with
  | nil => simp [leBytesToNat]
  | cons x a ih =>
    simp only [List.foldr_cons, ih, leBytesToNat, List.length_cons]
    ring

theorem leBytesToNat_append (a b : List Nat) :
    leBytesToNat (a ++ b) = leBytesToNat a + 256 ^ a.length * leBytesToNat b := by
  unfold leBytesToNat
  rw [List.foldr_append]
  exact leBytesToNat_foldr_init a _

theorem natToLeBytes_lt (n x : Nat) : ∀ b ∈ natToLeBytes n x, b < 256 := by
  induction n generalizing x with
  | zero => simp [natToLeBytes]
  | succ n ih =>
    intro b hb
    simp only [natToLeBytes, List.mem_cons] at hb
    rcases hb with h | h
    · omega
    · exact ih _ b h

theorem leBytesToNat_lt (bs : List Nat) (h : ∀ b ∈ bs, b < 256) :
    leBytesToNat bs < 256 ^ bs.length := by
  induction bs with
  | nil => simp [leBytesToNat]
  | cons x a ih =>
    have hx : x < 256 := h x (by simp)
    have ha := ih (fun b hb => h b (by simp [hb]))
    have : leBytesToNat (x :: a) = x + 256 * leBytesToNat a := rfl
    rw [this, List.length_cons, pow_succ']
    omega

/-! ## List chunking (Rust `slice::chunks`) -/

/-- `⌈a / b⌉` for `b > 0`. -/
def ceilDiv (a b : Nat) : Nat := (a + b - 1) / b

/-- Rust `slice::chunks(n)`: consecutive sub-slices of `n` elements,
the last one possibly shorter.  Recursion on the length of the list. -/
def chunksList (n : Nat) : List α → List (List α)
  | [] => []
  | x :: xs =>
    if n = 0 then [] else
    (x :: xs).take n :: chunksList n ((x :: xs).drop n)
  termination_by l => l.length
  decreasing_by simp; omega

theorem chunksList_nil (n : Nat) : chunksList n ([] : List α) = [] := by
  rw [chunksList]

theorem chunksList_cons (n : Nat) (hn : 0 < n) (x : α) (xs : List α) :
    chunksList n (x :: xs) = (x :: xs).take n :: chunksList n ((x :: xs).drop n) := by
  rw [chunksList]
  simp [Nat.pos_iff_ne_zero.mp hn]

theorem chunksList_eq_nil (n : Nat) (hn : 0 < n) (l : List α) :
    chunksList n l = [] ↔ l = [] := by
  cases l with
  | nil => simp [chunksList_nil]
  | cons x xs => rw [chunksList_cons n hn]; simp

/-! ## CRC-32 (ISO-HDLC / zlib polynomial)

Both `crc32fast::hash` and `crc::Crc<u32>::new(&CRC_32_ISO_HDLC).checksum`
compute the same function: the reflected CRC-32 with polynomial
`0xEDB88320`, initial value `0xFFFFFFFF` and final xor `0xFFFFFFFF`. -/

def crc32Step (c : Nat) : Nat :=
  if c % 2 = 1 then Nat.xor (c / 2) 0xEDB88320 else c / 2

def crc32Byte (c b : Nat) : Nat := crc32Step^[8] (Nat.xor c (b % 256))

/-- The running CRC state over a byte string.  The accumulator is
scrutinised so that kernel reduction keeps it a literal (the running
value is a `u32`; the match is exhaustive and does not change it). -/
def crc32Run : Nat → List Nat → Nat
  | c, [] => c
  | 0, b :: bs => crc32Run (crc32Byte 0 b) bs
  | c + 1, b :: bs => crc32Run (crc32Byte (c + 1) b) bs

theorem crc32Run_eq_foldl : ∀ (bs : List Nat) (c : Nat), crc32Run c bs = bs.foldl crc32Byte c := by
  intro bs
  induction bs with
  | nil => intro c; cases c <;> rfl
  | cons b bs ih =>
    intro c
    cases c with
    | zero => exact (ih (crc32Byte 0 b)).trans rfl
    | succ c => exact (ih (crc32Byte (c + 1) b)).trans rfl

def crc32 (bs : List Nat) : Nat :=
  Nat.xor (crc32Run 0xFFFFFFFF bs) 0xFFFFFFFF

theorem crc32Step_lt (c : Nat) (h : c < 2 ^ 32) : crc32Step c < 2 ^ 32 := by
  unfold crc32Step
  split
  · exact Nat.xor_lt_two_pow (by omega) (by norm_num)
  · omega

theorem crc32Byte_lt (c b : Nat) (h : c < 2 ^ 32) : crc32Byte c b < 2 ^ 32 := by
  unfold crc32Byte
  have start : Nat.xor c (b % 256) < 2 ^ 32 :=
    Nat.xor_lt_two_pow h (by have : b % 256 < 256 := Nat.mod_lt _ (by norm_num); omega)
  have iter : ∀ n x, x < 2 ^ 32 → crc32Step^[n] x < 2 ^ 32 := by
    intro n
    induction n with
    | zero => intro x hx; simpa using hx
    | succ n ih =>
      intro x hx
      rw [Function.iterate_succ_apply]
      exact ih _ (crc32Step_lt x hx)
  exact iter 8 _ start

theorem crc32_lt (bs : List Nat) : crc32 bs < 2 ^ 32 := by
  unfold crc32
  rw [crc32Run_eq_foldl]
  have fold : ∀ (l : List Nat) (c : Nat), c < 2 ^ 32 → l.foldl crc32Byte c < 2 ^ 32 := by
    intro l
    induction l with
    | nil => intro c hc; simpa using hc
    | cons x xs ih => intro c hc; exact ih _ (crc32Byte_lt c x hc)
  exact Nat.xor_lt_two_pow (fold bs _ (by norm_num)) (by norm_num)

set_option maxRecDepth 8000 in
/-- CRC-32 check value on the standard test string "123456789". -/
theorem crc32_check_value :
    crc32 [0x31, 0x32, 0x33, 0x34, 0x35, 0x36, 0x37, 0x38, 0x39] = 0xCBF43926 := by
  decide

/-! ## BLAKE3 (single-block inputs)

The `blake3` crate's `hash` and `keyed_hash` are called by `mapping.rs`
only on inputs of at most 64 bytes, which the BLAKE3 specification
processes as a single chunk consisting of a single block: one call of
the compression function with flags `CHUNK_START | CHUNK_END | ROOT`
(plus `KEYED_HASH` for `keyed_hash`).  Words are `u32`, little-endian. -/

def b3IV : List Nat :=
  [0x6A09E667, 0xBB67AE85, 0x3C6EF372, 0xA54FF53A,
   0x510E527F, 0x9B05688C, 0x1F83D9AB, 0x5BE0CD19]

def rotr32 (x n : Nat) : Nat := ((x >>> n) ||| (x <<< (32 - n))) % 2 ^ 32

/-- The BLAKE3 quarter-round `G` acting on state words `a b c d` with
message words `mx my`. -/
def b3G (v : List Nat) (a b c d mx my : Nat) : List Nat :=
  let va1 := (v.getD a 0 + v.getD b 0 + mx) % 2 ^ 32
  let vd1 := rotr32 (Nat.xor (v.getD d 0) va1) 16
  let vc1 := (v.getD c 0 + vd1) % 2 ^ 32
  let vb1 := rotr32 (Nat.xor (v.getD b 0) vc1) 12
  let va2 := (va1 + vb1 + my) % 2 ^ 32
  let vd2 := rotr32 (Nat.xor vd1 va2) 8
  let vc2 := (vc1 + vd2) % 2 ^ 32
  let vb2 := rotr32 (Nat.xor vb1 vc2) 7
  (((v.set a va2).set b vb2).set c vc2).set d vd2

def b3Round (v m : List Nat) : List Nat :=
  let g := fun (st : List Nat) (a b c d i j : Nat) => b3G st a b c d (m.getD i 0) (m.getD j 0)
  let v1 := g v 0 4 8 12 0 1
  let v2 := g v1 1 5 9 13 2 3
  let v3 := g v2 2 6 10 14 4 5
  let v4 := g v3 3 7 11 15 6 7
  let v5 := g v4 0 5 10 15 8 9
  let v6 := g v5 1 6 11 12 10 11
  let v7 := g v6 2 7 8 13 12 13
  g v7 3 4 9 14 14 15

def b3SigmaPerm : List Nat := [2, 6, 3, 10, 7, 0, 4, 13, 1, 11, 12, 5, 9, 14, 15, 8]

def b3Permute (m : List Nat) : List Nat := b3SigmaPerm.map (fun i => m.getD i 0)

/-- The first eight output words of the BLAKE3 compression function
(all that a 32-byte digest needs). -/
def b3Compress (h m : List Nat) (counter blockLen flags : Nat) : List Nat :=
  let v0 := h.take 8 ++ b3IV.take 4 ++
    [counter % 2 ^ 32, counter / 2 ^ 32 % 2 ^ 32, blockLen % 2 ^ 32, flags % 2 ^ 32]
  let p := (List.range 7).foldl
    (fun (vm : List Nat × List Nat) _ => (b3Round vm.1 vm.2, b3Permute vm.2)) (v0, m)
  (List.range 8).map (fun i => Nat.xor (p.1.getD i 0) (p.1.getD (i + 8) 0))

/-- The 64-byte message block of a short input: the input zero-padded to
64 bytes, read as 16 little-endian `u32` words. -/
def b3Block (input : List Nat) : List Nat :=
  (List.range 16).map
    (fun i => leBytesToNat (((input ++ List.replicate (64 - input.length) 0).drop (4 * i)).take 4))

/-- `blake3::hash` on an input of at most 64 bytes
(flags `CHUNK_START | CHUNK_END | ROOT` = 11). -/
def blake3Hash32 (input : List Nat) : List Nat :=
  ((b3Compress b3IV (b3Block input) 0 input.length 11).map (natToLeBytes 4)).flatten

/-- `blake3::keyed_hash` on an input of at most 64 bytes
(flags `CHUNK_START | CHUNK_END | ROOT | KEYED_HASH` = 27). -/
def blake3Keyed32 (key input : List Nat) : List Nat :=
  let h := (List.range 8).map (fun i => leBytesToNat ((key.drop (4 * i)).take 4))
  ((b3Compress h (b3Block input) 0 input.length 27).map (natToLeBytes 4)).flatten

/-- `ethnum::U256::from_le_bytes` on a 32-byte string (values are below
`2^256`; the reduction makes the bound definitional). -/
def u256OfLe (bs : List Nat) : Nat := leBytesToNat bs % 2 ^ 256

/-- `atomic_key` of `src/mapping.rs`: BLAKE3 of the caller key's 32-byte
little-endian representation. -/
def atomicKey (k : Nat) : Nat := u256OfLe (blake3Hash32 (natToLeBytes 32 k))

/-- `chunk_key` of `src/mapping.rs`: keyed BLAKE3 (keyed by the caller
key's bytes) of the chunk index as a little-endian `u64`. -/
def chunkKey (k i : Nat) : Nat :=
  u256OfLe (blake3Keyed32 (natToLeBytes 32 k) (natToLeBytes 8 (i % 2 ^ 64)))

set_option maxRecDepth 8000 in
/-- Official BLAKE3 test vector: the hash of the empty input. -/
theorem blake3_empty_vector :
    blake3Hash32 [] =
      [0xaf, 0x13, 0x49, 0xb9, 0xf5, 0xf9, 0xa1, 0xa6,
       0xa0, 0x40, 0x4d, 0xea, 0x36, 0xdc, 0xc9, 0x49,
       0x9b, 0xcb, 0x25, 0xc9, 0xad, 0xc1, 0x12, 0xb7,
       0xcc, 0x9a, 0x93, 0xca, 0xe4, 0x1f, 0x32, 0x62] := by
  decide

/-! ## The record codec of `src/legacy/record.rs`

A slot is a 768-byte record: 4 bytes of CRC-32 checksum, 32 bytes of
derived key (little-endian `U256`), 4 bytes of length (`u32`), and a
728-byte body. -/

def MAX_RECORD_BODYLEN : Nat := 728

def RECORD_SIZE : Nat := 768

/-- The checksummed part of a fresh record (bytes `[4..768)`): key,
length (`length as u32`), body equal to the value zero-padded to 728
bytes.  (`new_record` panics when `value.len() > 728`; all call sites
pass at most 728 bytes.) -/
def recContent (key length : Nat) (value : List Nat) : List Nat :=
  natToLeBytes 32 key ++ natToLeBytes 4 (length % 2 ^ 32) ++
    (value ++ List.replicate (728 - value.length) 0)

/-- `new_record` of `src/legacy/record.rs`: the 768-byte encoding, with
the CRC-32 of bytes `[4..768)` stored in bytes `[0..4)`. -/
def new_record (key length : Nat) (value : List Nat) : List Nat :=
  natToLeBytes 4 (crc32 (recContent key length value)) ++ recContent key length value

/-- `Record::checksum`: `u32` at bytes `[0..4)`. -/
def csumOf (s : List Nat) : Nat := leBytesToNat (s.take 4)

/-- `Record::key`: `U256` at bytes `[4..36)`. -/
def recKey (s : List Nat) : Nat := leBytesToNat ((s.drop 4).take 32)

/-- `Record::length`: `u32` at bytes `[36..40)`. -/
def recLength (s : List Nat) : Nat := leBytesToNat ((s.drop 36).take 4)

/-- `Record::value`: bytes `[40..)`, truncated to `length` when longer. -/
def recValue (s : List Nat) : List Nat :=
  let v := s.drop 40
  if recLength s < v.length then v.take (recLength s) else v

/-- `Record::new_crc32` (`crc32fast::hash` over bytes `[4..)`). -/
def newCrc32 (s : List Nat) : Nat := crc32 (s.drop 4)

/-- `Record::legacy_crc32` (`crc::Crc::<u32>::new(&CRC_32_ISO_HDLC)`
over bytes `[4..)`; the same CRC-32 function as `crc32fast`). -/
def legacyCrc32 (s : List Nat) : Nat := crc32 (s.drop 4)

/-- `Record::validate` as a boolean:
`csum > 0 && (csum == new_crc32 || csum == legacy_crc32)`. -/
def validateB (s : List Nat) : Bool :=
  decide (0 < csumOf s) && (decide (csumOf s = newCrc32 s) || decide (csumOf s = legacyCrc32 s))

/-- `Record::validate`: `Some(self)` when the checksum checks out. -/
def validateRec (s : List Nat) : Option (List Nat) :=
  if validateB s then some s else none

/-- An all-zero slot (the content of unwritten file space). -/
def zeroSlot : List Nat := List.replicate 768 0

theorem new_record_drop4 (k l : Nat) (v : List Nat) :
    (new_record k l v).drop 4 = recContent k l v := by
  unfold new_record
  rw [List.drop_left' (natToLeBytes_length 4 _)]

theorem csumOf_new_record (k l : Nat) (v : List Nat) :
    csumOf (new_record k l v) = crc32 (recContent k l v) := by
  unfold csumOf new_record
  rw [List.take_left' (natToLeBytes_length 4 _), leBytesToNat_natToLeBytes]
  exact Nat.mod_eq_of_lt (crc32_lt _)

theorem recKey_new_record (k l : Nat) (v : List Nat) (hk : k < 2 ^ 256) :
    recKey (new_record k l v) = k := by
  unfold recKey
  rw [new_record_drop4]
  unfold recContent
  rw [List.append_assoc, List.take_left' (natToLeBytes_length 32 _),
    leBytesToNat_natToLeBytes]
  exact Nat.mod_eq_of_lt (by simpa using hk)

theorem recLength_new_record (k l : Nat) (v : List Nat) :
    recLength (new_record k l v) = l % 2 ^ 32 := by
  unfold recLength
  have h : (new_record k l v).drop 36
      = natToLeBytes 4 (l % 2 ^ 32) ++ (v ++ List.replicate (728 - v.length) 0) := by
    have h4 : (new_record k l v).drop 36 = ((new_record k l v).drop 4).drop 32 := by
      rw [List.drop_drop]
    rw [h4, new_record_drop4]
    unfold recContent
    rw [List.append_assoc, List.drop_left' (natToLeBytes_length 32 _)]
  rw [h, List.take_left' (natToLeBytes_length 4 _), leBytesToNat_natToLeBytes]
  exact Nat.mod_eq_of_lt (by
    have := Nat.mod_lt l (show 0 < 2 ^ 32 by norm_num)
    simpa using this)

theorem new_record_drop40 (k l : Nat) (v : List Nat) :
    (new_record k l v).drop 40 = v ++ List.replicate (728 - v.length) 0 := by
  have h : (new_record k l v).drop 40 = (((new_record k l v).drop 4).drop 32).drop 4 := by
    rw [List.drop_drop, List.drop_drop]
  rw [h, new_record_drop4]
  unfold recContent
  rw [List.append_assoc, List.drop_left' (natToLeBytes_length 32 _),
    List.drop_left' (natToLeBytes_length 4 _)]

theorem recValue_new_record (k : Nat) (v : List Nat) (hv : v.length ≤ 728) :
    recValue (new_record k v.length v) = v := by
  unfold recValue
  rw [new_record_drop40, recLength_new_record]
  have hlen : (v ++ List.replicate (728 - v.length) 0).length = 728 := by
    simp; omega
  have hmod : v.length % 2 ^ 32 = v.length := Nat.mod_eq_of_lt (by omega)
  simp only [hmod, hlen]
  rcases Nat.lt_or_ge v.length 728 with h | h
  · simp only [h, if_true]
    exact List.take_left' rfl
  · have h728 : v.length = 728 := le_antisymm hv h
    simp [h728]

theorem validateB_new_record (k l : Nat) (v : List Nat) :
    validateB (new_record k l v) = true ↔ crc32 (recContent k l v) ≠ 0 := by
  unfold validateB newCrc32
  rw [csumOf_new_record, new_record_drop4]
  simp [Nat.pos_iff_ne_zero]

theorem validateB_zeroSlot : validateB zeroSlot = false := by decide

/-! ## The hash map of `src/mapping.rs`

`MappingInner` holds a 1 GiB `alloc_mmap` and a `Table`.  The mmap is an
array of `2^27` little-endian `u64` entries: entry 0 (bytes `[0..8)`) is
the allocation pointer, and entry `e ≥ 1` (bytes `[8e..8e+8)`) holds the
table record number of the record placed at probe slot `e`, or 0 when
the slot is empty.  Both `get_atomic` and `really_insert_atomic` skip
byte offset 0 (entry 0), so the allocation pointer never aliases a probe
slot; the model therefore keeps the two as separate fields.

The `Table` that `mapping.rs` uses (`table.get(recno)`,
`table.insert(recno, rec)`) is not the HAMT `Table` of `src/table.rs`;
its source is not in the repository snapshot.  Modelled from the spec:
§4.2's slot table owns the sparse, zero-initialised mapped file, and
`read`/`write` of record number `p` access the 768-byte slot `p`; the
model is the total function `store`, zero-filled where never written. -/

structure MState where
  allocPtr : Nat
  slots : Nat → Nat
  store : Nat → List Nat

/-- The number of `u64` entries of the 1 GiB `alloc_mmap`
(`alloc_mmap.len() / 8`). -/
def numEntries : Nat := 2 ^ 27

/-- The `j`-th probe position of `probe_sequence(key)`, reduced to an
entry index as both walk loops do:
`(key.as_u64() as usize + j) % (alloc_mmap.len() / 8)`. -/
def probeEntry (dk j : Nat) : Nat := (dk % 2 ^ 64 + j) % numEntries

/-- The state update of the placement block of `really_insert_atomic`:
the record is appended at the first nonzero position at or after the
allocation pointer (`for offset in 0.. { if ptr + offset == 0 continue; ... }`),
the probe entry is pointed at it, and the allocation pointer is bumped
past it. -/
def posOf (st : MState) : Nat := if st.allocPtr = 0 then 1 else st.allocPtr

def placeAt (st : MState) (e : Nat) (rec : List Nat) : MState :=
  { allocPtr := posOf st + 1
    slots := fun e2 => if e2 = e then posOf st else st.slots e2
    store := fun p => if p = posOf st then rec else st.store p }

/-- The probe loop of `really_insert_atomic`, from probe index `j`, with
explicit fuel (the Rust loop is unbounded).  At each probed entry:
skip entry 0; place into an empty or checksum-invalid slot; stop without
writing when a valid record already carries the key; keep probing past a
valid record with another key. -/
def insertWalk (st : MState) (dk : Nat) (rec : List Nat) : Nat → Nat → Option MState
  | 0, _ => none
  | fuel + 1, j =>
    let e := probeEntry dk j
    if e = 0 then insertWalk st dk rec fuel (j + 1)
    else if st.slots e = 0 then some (placeAt st e rec)
    else if validateB (st.store (st.slots e)) then
      if recKey (st.store (st.slots e)) = dk then some st
      else insertWalk st dk rec fuel (j + 1)
    else some (placeAt st e rec)

/-- `MappingInner::insert_atomic` (which delegates to
`really_insert_atomic`): the record is built with
`value_length.unwrap_or(value.len())`. -/
def insertAtomicF (fuel : Nat) (st : MState) (dk : Nat) (value : List Nat)
    (lenOv : Option Nat) : Option MState :=
  insertWalk st dk (new_record dk (lenOv.getD value.length) value) fuel 0

/-- The probe loop of `MappingInner::get_atomic`, from probe index `j`:
skip entry 0; an empty entry ends the probe (`break`); a checksum-invalid
record returns not-found (the `?` on `validate`); a valid record returns
`(value, length)` if the key matches and is skipped otherwise. -/
def getWalk (st : MState) (dk : Nat) : Nat → Nat → Option (List Nat × Nat)
  | 0, _ => none
  | fuel + 1, j =>
    let e := probeEntry dk j
    if e = 0 then getWalk st dk fuel (j + 1)
    else if st.slots e = 0 then none
    else if validateB (st.store (st.slots e)) then
      if recKey (st.store (st.slots e)) = dk then
        some (recValue (st.store (st.slots e)), recLength (st.store (st.slots e)))
      else getWalk st dk fuel (j + 1)
    else none

/-- `MappingInner::get_atomic`. -/
def getAtomicF (fuel : Nat) (st : MState) (dk : Nat) : Option (List Nat × Nat) :=
  getWalk st dk fuel 0

/-- The chunk loop of `Mapping::insert` for long values:
`for (i, chunk) in value.chunks(728).enumerate() { insert_atomic(chunk_key(key, i), chunk, None) }`. -/
def chunkFold (fuel k : Nat) : MState → List (List Nat) → Nat → Option MState
  | st, [], _ => some st
  | st, c :: rest, i =>
    (insertAtomicF fuel st (chunkKey k i) c none).bind
      (fun st2 => chunkFold fuel k st2 rest (i + 1))

/-- `Mapping::insert`: a value of at most 728 bytes is stored as one
atomic record at `atomic_key(key)`; a longer value stores a header with
`value_length = Some(len)` and an empty body, then one record per
728-byte chunk at `chunk_key(key, i)`. -/
def mappingInsertF (fuel : Nat) (st : MState) (k : Nat) (v : List Nat) : Option MState :=
  if v.length ≤ MAX_RECORD_BODYLEN then insertAtomicF fuel st (atomicKey k) v none
  else
    (insertAtomicF fuel st (atomicKey k) [] (some v.length)).bind
      (fun st1 => chunkFold fuel k st1 (chunksList MAX_RECORD_BODYLEN v) 0)

/-- The chunk-reassembly loop of `Mapping::get`: the buffer of
`top_length` bytes is filled chunk by chunk; a missing chunk returns
not-found (`some none`), a chunk whose stored body length differs from
the buffer chunk's length makes `copy_from_slice` panic (`none`). -/
def assembleF (fuel : Nat) (st : MState) (k L : Nat) :
    Nat → Nat → List Nat → Option (Option (List Nat))
  | 0, _, acc => some (some acc)
  | rem + 1, i, acc =>
    match getAtomicF fuel st (chunkKey k i) with
    | none => some none
    | some (db, _) =>
      if db.length = min MAX_RECORD_BODYLEN (L - MAX_RECORD_BODYLEN * i) then
        assembleF fuel st k L rem (i + 1) (acc ++ db)
      else none

/-- `Mapping::get`: `some none` is Rust's `None` (not found), `none`
models a panic inside the call. -/
def mappingGetF (fuel : Nat) (st : MState) (k : Nat) : Option (Option (List Nat)) :=
  match getAtomicF fuel st (atomicKey k) with
  | none => some none
  | some (top, topLen) =>
    if topLen ≤ MAX_RECORD_BODYLEN then some (some top)
    else assembleF fuel st k topLen (ceilDiv topLen MAX_RECORD_BODYLEN) 0 []

/-- What a probe of entry `e` can observe: `some bytes` when the entry
points at a record that validates, `none` when the entry is empty or the
record fails validation (both walks stop identically in the two cases). -/
def normView (st : MState) (e : Nat) : Option (List Nat) :=
  if st.slots e = 0 then none
  else if validateB (st.store (st.slots e)) then some (st.store (st.slots e)) else none

/-- States whose backing table is zero-filled at and above the
allocation point (every state reachable from a fresh file is such). -/
def goodState (st : MState) : Prop :=
  ∀ p, max 1 st.allocPtr ≤ p → st.store p = zeroSlot

/-- No record anywhere in the backing table validates under derived key
`dk`. -/
def noKeyPresent (st : MState) (dk : Nat) : Prop :=
  ∀ o, validateB (st.store o) = true → recKey (st.store o) ≠ dk

/-- The state of a freshly created database file (all-zero sparse file). -/
def emptyM : MState :=
  { allocPtr := 0, slots := fun _ => 0, store := fun _ => zeroSlot }

/-! ## Walk lemmas -/

theorem insertWalk_zero (st : MState) (dk : Nat) (rec : List Nat) (j : Nat) :
    insertWalk st dk rec 0 j = none := rfl

theorem insertWalk_succ (st : MState) (dk : Nat) (rec : List Nat) (fuel j : Nat) :
    insertWalk st dk rec (fuel + 1) j =
      if probeEntry dk j = 0 then insertWalk st dk rec fuel (j + 1)
      else if st.slots (probeEntry dk j) = 0 then some (placeAt st (probeEntry dk j) rec)
      else if validateB (st.store (st.slots (probeEntry dk j))) then
        if recKey (st.store (st.slots (probeEntry dk j))) = dk then some st
        else insertWalk st dk rec fuel (j + 1)
      else some (placeAt st (probeEntry dk j) rec) := rfl

theorem getWalk_zero (st : MState) (dk j : Nat) : getWalk st dk 0 j = none := rfl

theorem getWalk_succ (st : MState) (dk fuel j : Nat) :
    getWalk st dk (fuel + 1) j =
      if probeEntry dk j = 0 then getWalk st dk fuel (j + 1)
      else if st.slots (probeEntry dk j) = 0 then none
      else if validateB (st.store (st.slots (probeEntry dk j))) then
        if recKey (st.store (st.slots (probeEntry dk j))) = dk then
          some (recValue (st.store (st.slots (probeEntry dk j))),
                recLength (st.store (st.slots (probeEntry dk j))))
        else getWalk st dk fuel (j + 1)
      else none := rfl

/-- A successful insert walk either left the state untouched (the key
was already present behind a valid record) or placed the record into a
single probed entry that was empty or failed validation. -/
theorem insertWalk_shape (st : MState) (dk : Nat) (rec : List Nat) :
    ∀ fuel j st2, insertWalk st dk rec fuel j = some st2 →
      st2 = st ∨ ∃ e, e ≠ 0 ∧
        (st.slots e = 0 ∨ validateB (st.store (st.slots e)) = false) ∧
        st2 = placeAt st e rec := by
  intro fuel
  induction fuel with
  | zero => intro j st2 h; simp [insertWalk_zero] at h
  | succ fuel ih =>
    intro j st2 h
    rw [insertWalk_succ] at h
    by_cases h0 : probeEntry dk j = 0
    · rw [if_pos h0] at h
      exact ih (j + 1) st2 h
    · rw [if_neg h0] at h
      by_cases hs : st.slots (probeEntry dk j) = 0
      · rw [if_pos hs] at h
        exact Or.inr ⟨probeEntry dk j, h0, Or.inl hs, (Option.some_inj.mp h).symm⟩
      · rw [if_neg hs] at h
        by_cases hv : validateB (st.store (st.slots (probeEntry dk j))) = true
        · rw [if_pos hv] at h
          by_cases hk : recKey (st.store (st.slots (probeEntry dk j))) = dk
          · rw [if_pos hk] at h
            exact Or.inl (Option.some_inj.mp h).symm
          · rw [if_neg hk] at h
            exact ih (j + 1) st2 h
        · rw [if_neg hv] at h
          exact Or.inr ⟨probeEntry dk j, h0,
            Or.inr (Bool.not_eq_true _ ▸ hv), (Option.some_inj.mp h).symm⟩

theorem normView_eq_some (st : MState) (e : Nat) (b : List Nat)
    (h : normView st e = some b) :
    st.slots e ≠ 0 ∧ validateB (st.store (st.slots e)) = true ∧ st.store (st.slots e) = b := by
  unfold normView at h
  by_cases hs : st.slots e = 0
  · rw [if_pos hs] at h; cases h
  · rw [if_neg hs] at h
    by_cases hv : validateB (st.store (st.slots e)) = true
    · rw [if_pos hv] at h
      exact ⟨hs, hv, Option.some_inj.mp h⟩
    · rw [if_neg hv] at h; cases h

theorem normView_eq_none (st : MState) (e : Nat) (h : normView st e = none) :
    st.slots e = 0 ∨ validateB (st.store (st.slots e)) = false := by
  unfold normView at h
  by_cases hs : st.slots e = 0
  · exact Or.inl hs
  · rw [if_neg hs] at h
    by_cases hv : validateB (st.store (st.slots e)) = true
    · rw [if_pos hv] at h; cases h
    · exact Or.inr (by simpa using hv)

/-- A probe step whose entry observes `none` makes `get_atomic` answer
not-found, whether the entry is empty or its record is invalid. -/
theorem getWalk_step_none (st : MState) (dk fuel j : Nat)
    (h0 : probeEntry dk j ≠ 0) (h : normView st (probeEntry dk j) = none) :
    getWalk st dk (fuel + 1) j = none := by
  rw [getWalk_succ, if_neg h0]
  rcases normView_eq_none st _ h with hs | hv
  · rw [if_pos hs]
  · by_cases hs : st.slots (probeEntry dk j) = 0
    · rw [if_pos hs]
    · rw [if_neg hs, if_neg (by simp [hv])]

/-- `get_atomic` only reads the state through `normView`: two states
with the same view answer every lookup identically. -/
theorem getWalk_congr (st1 st2 : MState) (hnv : ∀ e, normView st1 e = normView st2 e)
    (dk : Nat) : ∀ fuel j, getWalk st1 dk fuel j = getWalk st2 dk fuel j := by
  intro fuel
  induction fuel with
  | zero => intro j; rfl
  | succ fuel ih =>
    intro j
    by_cases h0 : probeEntry dk j = 0
    · rw [getWalk_succ, getWalk_succ, if_pos h0, if_pos h0]
      exact ih (j + 1)
    · rcases hv1 : normView st1 (probeEntry dk j) with _ | b
      · have hv2 : normView st2 (probeEntry dk j) = none := (hnv _).symm.trans hv1
        rw [getWalk_step_none st1 dk fuel j h0 hv1, getWalk_step_none st2 dk fuel j h0 hv2]
      · have hv2 : normView st2 (probeEntry dk j) = some b := (hnv _).symm.trans hv1
        obtain ⟨hs1, hval1, he1⟩ := normView_eq_some st1 _ b hv1
        obtain ⟨hs2, hval2, he2⟩ := normView_eq_some st2 _ b hv2
        rw [getWalk_succ, getWalk_succ, if_neg h0, if_neg h0,
          if_neg hs1, if_neg hs2, if_pos hval1, if_pos hval2, he1, he2]
        by_cases hk : recKey b = dk
        · rw [if_pos hk, if_pos hk]
        · rw [if_neg hk, if_neg hk]
          exact ih (j + 1)

theorem getAtomicF_congr (st1 st2 : MState) (hnv : ∀ e, normView st1 e = normView st2 e)
    (fuel dk : Nat) : getAtomicF fuel st1 dk = getAtomicF fuel st2 dk :=
  getWalk_congr st1 st2 hnv dk fuel 0

theorem assembleF_succ (fuel : Nat) (st : MState) (k L rem i : Nat) (acc : List Nat) :
    assembleF fuel st k L (rem + 1) i acc =
      match getAtomicF fuel st (chunkKey k i) with
      | none => some none
      | some (db, _) =>
        if db.length = min MAX_RECORD_BODYLEN (L - MAX_RECORD_BODYLEN * i) then
          assembleF fuel st k L rem (i + 1) (acc ++ db)
        else none := rfl

theorem assembleF_congr (st1 st2 : MState) (hnv : ∀ e, normView st1 e = normView st2 e)
    (fuel k L : Nat) :
    ∀ rem i acc, assembleF fuel st1 k L rem i acc = assembleF fuel st2 k L rem i acc := by
  intro rem
  induction rem with
  | zero => intro i acc; rfl
  | succ rem ih =>
    intro i acc
    rw [assembleF_succ, assembleF_succ, getAtomicF_congr st1 st2 hnv fuel (chunkKey k i)]
    rcases getAtomicF fuel st2 (chunkKey k i) with _ | ⟨db, len⟩
    · rfl
    · show (if db.length = _ then assembleF fuel st1 k L rem (i + 1) (acc ++ db) else none)
        = (if db.length = _ then assembleF fuel st2 k L rem (i + 1) (acc ++ db) else none)
      rw [ih (i + 1) (acc ++ db)]

theorem mappingGetF_congr (st1 st2 : MState) (hnv : ∀ e, normView st1 e = normView st2 e)
    (fuel k : Nat) : mappingGetF fuel st1 k = mappingGetF fuel st2 k := by
  unfold mappingGetF
  rw [getAtomicF_congr st1 st2 hnv fuel (atomicKey k)]
  rcases getAtomicF fuel st2 (atomicKey k) with _ | ⟨top, topLen⟩
  · rfl
  · show (if topLen ≤ _ then _ else assembleF fuel st1 k topLen _ 0 []) = _
    rw [assembleF_congr st1 st2 hnv fuel k topLen]

theorem posOf_eq_max (st : MState) : posOf st = max 1 st.allocPtr := by
  unfold posOf; split <;> omega

theorem posOf_pos (st : MState) : 0 < posOf st := by
  rw [posOf_eq_max]; omega

theorem placeAt_slots (st : MState) (e : Nat) (rec : List Nat) (e2 : Nat) :
    (placeAt st e rec).slots e2 = if e2 = e then posOf st else st.slots e2 := rfl

theorem placeAt_store (st : MState) (e : Nat) (rec : List Nat) (p : Nat) :
    (placeAt st e rec).store p = if p = posOf st then rec else st.store p := rfl

theorem goodState_store_posOf (st : MState) (hg : goodState st) :
    st.store (posOf st) = zeroSlot :=
  hg (posOf st) (le_of_eq (posOf_eq_max st).symm)

theorem goodState_placeAt (st : MState) (e : Nat) (rec : List Nat) (hg : goodState st) :
    goodState (placeAt st e rec) := by
  intro p hp
  have halloc : (placeAt st e rec).allocPtr = posOf st + 1 := rfl
  rw [halloc] at hp
  rw [placeAt_store]
  have hpos : posOf st < p := by omega
  rw [if_neg (by omega)]
  exact hg p (by rw [posOf_eq_max] at hpos; omega)

theorem goodState_insertWalk (st : MState) (dk : Nat) (rec : List Nat) (hg : goodState st)
    (fuel j : Nat) (st2 : MState) (hins : insertWalk st dk rec fuel j = some st2) :
    goodState st2 := by
  rcases insertWalk_shape st dk rec fuel j st2 hins with h | ⟨e, _, _, h⟩
  · rwa [h]
  · rw [h]; exact goodState_placeAt st e rec hg

/-- An insert into a good state never disturbs an existing successful
lookup: the placed record lands in an entry the lookup classified as
free or invalid, at a table position the lookup never dereferences. -/
theorem getWalk_preserved (st : MState) (dk2 : Nat) (rec2 : List Nat) (hg : goodState st)
    (f2 j2 : Nat) (st2 : MState) (hins : insertWalk st dk2 rec2 f2 j2 = some st2) (dk : Nat) :
    ∀ f j x, getWalk st dk f j = some x → getWalk st2 dk f j = some x := by
  rcases insertWalk_shape st dk2 rec2 f2 j2 st2 hins with hsh | ⟨e2, he2, hcond, hsh⟩
  · rw [hsh]; intro f j x h; exact h
  · subst hsh
    intro f
    induction f with
    | zero => intro j x h; simp [getWalk_zero] at h
    | succ f ih =>
      intro j x h
      rw [getWalk_succ] at h ⊢
      by_cases h0 : probeEntry dk j = 0
      · rw [if_pos h0] at h ⊢
        exact ih (j + 1) x h
      · rw [if_neg h0] at h ⊢
        by_cases hs : st.slots (probeEntry dk j) = 0
        · rw [if_pos hs] at h; cases h
        · rw [if_neg hs] at h
          by_cases hv : validateB (st.store (st.slots (probeEntry dk j))) = true
          · rw [if_pos hv] at h
            have hne : probeEntry dk j ≠ e2 := by
              intro heq
              rcases hcond with hc | hc
              · exact hs (heq ▸ hc)
              · rw [heq] at hv
                rw [hv] at hc
                cases hc
            have hslot : (placeAt st e2 rec2).slots (probeEntry dk j)
                = st.slots (probeEntry dk j) := by
              rw [placeAt_slots, if_neg hne]
            have hnp : st.slots (probeEntry dk j) ≠ posOf st := by
              intro heq
              rw [heq, goodState_store_posOf st hg, validateB_zeroSlot] at hv
              cases hv
            have hst : (placeAt st e2 rec2).store (st.slots (probeEntry dk j))
                = st.store (st.slots (probeEntry dk j)) := by
              rw [placeAt_store, if_neg hnp]
            rw [hslot, if_neg hs, hst, if_pos hv]
            by_cases hk : recKey (st.store (st.slots (probeEntry dk j))) = dk
            · rw [if_pos hk] at h ⊢; exact h
            · rw [if_neg hk] at h ⊢
              exact ih (j + 1) x h
          · rw [if_neg hv] at h; cases h

/-- After a successful insert walk of a record that validates and
carries the key, a lookup with the same fuel finds some record for that
key. -/
theorem getWalk_after_insert_some (st : MState) (dk : Nat) (rec : List Nat)
    (hvrec : validateB rec = true) (hkrec : recKey rec = dk) :
    ∀ f j st2, insertWalk st dk rec f j = some st2 → ∃ x, getWalk st2 dk f j = some x := by
  intro f
  induction f with
  | zero => intro j st2 h; simp [insertWalk_zero] at h
  | succ f ih =>
    intro j st2 h
    rw [insertWalk_succ] at h
    rw [getWalk_succ]
    by_cases h0 : probeEntry dk j = 0
    · rw [if_pos h0] at h ⊢
      exact ih (j + 1) st2 h
    · rw [if_neg h0] at h ⊢
      by_cases hs : st.slots (probeEntry dk j) = 0
      · rw [if_pos hs] at h
        cases Option.some_inj.mp h
        rw [placeAt_slots, if_pos rfl, if_neg (by have := posOf_pos st; omega),
          placeAt_store, if_pos rfl, if_pos hvrec, if_pos hkrec]
        exact ⟨_, rfl⟩
      · rw [if_neg hs] at h
        by_cases hv : validateB (st.store (st.slots (probeEntry dk j))) = true
        · rw [if_pos hv] at h
          by_cases hk : recKey (st.store (st.slots (probeEntry dk j))) = dk
          · rw [if_pos hk] at h
            cases Option.some_inj.mp h
            rw [if_neg hs, if_pos hv, if_pos hk]
            exact ⟨_, rfl⟩
          · rw [if_neg hk] at h
            rcases insertWalk_shape st dk rec f (j + 1) st2 h with hsh | ⟨e3, he3, hcond, hsh⟩
            · obtain ⟨x, hx⟩ := ih (j + 1) st2 h
              rw [hsh] at hx ⊢
              rw [if_neg hs, if_pos hv, if_neg hk]
              exact ⟨x, hx⟩
            · have hne : probeEntry dk j ≠ e3 := by
                intro heq
                rcases hcond with hc | hc
                · exact hs (heq ▸ hc)
                · rw [heq] at hv
                  rw [hv] at hc
                  cases hc
              have hslot : st2.slots (probeEntry dk j) = st.slots (probeEntry dk j) := by
                rw [hsh, placeAt_slots, if_neg hne]
              by_cases hp : st.slots (probeEntry dk j) = posOf st
              · have hst : st2.store (st.slots (probeEntry dk j)) = rec := by
                  rw [hsh, placeAt_store, if_pos hp]
                rw [hslot, if_neg hs, hst, if_pos hvrec, if_pos hkrec]
                exact ⟨_, rfl⟩
              · have hst : st2.store (st.slots (probeEntry dk j))
                    = st.store (st.slots (probeEntry dk j)) := by
                  rw [hsh, placeAt_store, if_neg hp]
                obtain ⟨x, hx⟩ := ih (j + 1) st2 h
                rw [hslot, if_neg hs, hst, if_pos hv, if_neg hk]
                exact ⟨x, hx⟩
        · rw [if_neg hv] at h
          cases Option.some_inj.mp h
          rw [placeAt_slots, if_pos rfl, if_neg (by have := posOf_pos st; omega),
            placeAt_store, if_pos rfl, if_pos hvrec, if_pos hkrec]
          exact ⟨_, rfl⟩

/-- When a lookup already finds the key, the insert walk is a strict
no-op (`return Some(())` with no write). -/
theorem insertWalk_noop (st : MState) (dk : Nat) (rec : List Nat) :
    ∀ f fu j st2 x, getWalk st dk fu j = some x →
      insertWalk st dk rec f j = some st2 → st2 = st := by
  intro f
  induction f with
  | zero => intro fu j st2 x hg hi; simp [insertWalk_zero] at hi
  | succ f ih =>
    intro fu j st2 x hg hi
    cases fu with
    | zero => simp [getWalk_zero] at hg
    | succ fu =>
      rw [getWalk_succ] at hg
      rw [insertWalk_succ] at hi
      by_cases h0 : probeEntry dk j = 0
      · rw [if_pos h0] at hg hi
        exact ih fu (j + 1) st2 x hg hi
      · rw [if_neg h0] at hg hi
        by_cases hs : st.slots (probeEntry dk j) = 0
        · rw [if_pos hs] at hg; cases hg
        · rw [if_neg hs] at hg hi
          by_cases hv : validateB (st.store (st.slots (probeEntry dk j))) = true
          · rw [if_pos hv] at hg hi
            by_cases hk : recKey (st.store (st.slots (probeEntry dk j))) = dk
            · rw [if_pos hk] at hi
              exact (Option.some_inj.mp hi).symm
            · rw [if_neg hk] at hg hi
              exact ih fu (j + 1) st2 x hg hi
          · rw [if_neg hv] at hg; cases hg

/-- Inserting a record that fails validation (zero CRC) can rewrite
state, but every probe still observes the same view. -/
theorem insertWalk_crc0 (st : MState) (dk : Nat) (rec : List Nat)
    (hvrec : validateB rec = false) (hg : goodState st)
    (f j : Nat) (st2 : MState) (hins : insertWalk st dk rec f j = some st2) :
    (∀ e, normView st2 e = normView st e) ∧ goodState st2 := by
  rcases insertWalk_shape st dk rec f j st2 hins with hsh | ⟨e2, he2, hcond, hsh⟩
  · rw [hsh]; exact ⟨fun _ => rfl, hg⟩
  · subst hsh
    refine ⟨fun e3 => ?_, goodState_placeAt st e2 rec hg⟩
    unfold normView
    rw [placeAt_slots]
    by_cases he : e3 = e2
    · rw [if_pos he, if_neg (by have := posOf_pos st; omega),
        placeAt_store, if_pos rfl, if_neg (by simp [hvrec])]
      by_cases hz : st.slots e3 = 0
      · rw [if_pos hz]
      · rcases hcond with hc | hc
        · exact absurd (he ▸ hc) hz
        · rw [if_neg hz, if_neg (by simp [he ▸ hc])]
    · rw [if_neg he]
      by_cases ho : st.slots e3 = 0
      · rw [if_pos ho, if_pos ho]
      · rw [if_neg ho, if_neg ho, placeAt_store]
        by_cases hp : st.slots e3 = posOf st
        · rw [if_pos hp, if_neg (by simp [hvrec]),
            hp, goodState_store_posOf st hg, if_neg (by simp [validateB_zeroSlot])]
        · rw [if_neg hp]

/-- Round trip: when no record for `dk` validates anywhere in the table,
a successful insert walk of a validating record for `dk` makes the
lookup walk with the same fuel return exactly that record's value and
length. -/
theorem getWalk_after_insert (st : MState) (dk : Nat) (rec : List Nat)
    (hnk : noKeyPresent st dk) (hvrec : validateB rec = true) (hkrec : recKey rec = dk) :
    ∀ f j st2, insertWalk st dk rec f j = some st2 →
      getWalk st2 dk f j = some (recValue rec, recLength rec) := by
  intro f
  induction f with
  | zero => intro j st2 h; simp [insertWalk_zero] at h
  | succ f ih =>
    intro j st2 h
    rw [insertWalk_succ] at h
    rw [getWalk_succ]
    by_cases h0 : probeEntry dk j = 0
    · rw [if_pos h0] at h ⊢
      exact ih (j + 1) st2 h
    · rw [if_neg h0] at h ⊢
      by_cases hs : st.slots (probeEntry dk j) = 0
      · rw [if_pos hs] at h
        cases Option.some_inj.mp h
        rw [placeAt_slots, if_pos rfl, if_neg (by have := posOf_pos st; omega),
          placeAt_store, if_pos rfl, if_pos hvrec, if_pos hkrec]
      · rw [if_neg hs] at h
        by_cases hv : validateB (st.store (st.slots (probeEntry dk j))) = true
        · rw [if_pos hv] at h
          have hk : recKey (st.store (st.slots (probeEntry dk j))) ≠ dk :=
            hnk (st.slots (probeEntry dk j)) hv
          rw [if_neg hk] at h
          rcases insertWalk_shape st dk rec f (j + 1) st2 h with hsh | ⟨e3, he3, hcond, hsh⟩
          · have hx := ih (j + 1) st2 h
            rw [hsh] at hx ⊢
            rw [if_neg hs, if_pos hv, if_neg hk]
            exact hx
          · have hne : probeEntry dk j ≠ e3 := by
              intro heq
              rcases hcond with hc | hc
              · exact hs (heq ▸ hc)
              · rw [heq] at hv
                rw [hv] at hc
                cases hc
            have hslot : st2.slots (probeEntry dk j) = st.slots (probeEntry dk j) := by
              rw [hsh, placeAt_slots, if_neg hne]
            by_cases hp : st.slots (probeEntry dk j) = posOf st
            · have hst : st2.store (st.slots (probeEntry dk j)) = rec := by
                rw [hsh, placeAt_store, if_pos hp]
              rw [hslot, if_neg hs, hst, if_pos hvrec, if_pos hkrec]
            · have hst : st2.store (st.slots (probeEntry dk j))
                  = st.store (st.slots (probeEntry dk j)) := by
                rw [hsh, placeAt_store, if_neg hp]
              have hx := ih (j + 1) st2 h
              rw [hslot, if_neg hs, hst, if_pos hv, if_neg hk]
              exact hx
        · rw [if_neg hv] at h
          cases Option.some_inj.mp h
          rw [placeAt_slots, if_pos rfl, if_neg (by have := posOf_pos st; omega),
            placeAt_store, if_pos rfl, if_pos hvrec, if_pos hkrec]

theorem atomicKey_lt (k : Nat) : atomicKey k < 2 ^ 256 := by
  unfold atomicKey u256OfLe
  exact Nat.mod_lt _ (by norm_num)

theorem chunkKey_lt (k i : Nat) : chunkKey k i < 2 ^ 256 := by
  unfold chunkKey u256OfLe
  exact Nat.mod_lt _ (by norm_num)

/-- C1, amended.  For a short value, when the handle holds no valid
record for `AtomicKey(k)` and the CRC-32 of the freshly encoded record
is non-zero, a returned `insert(k, v)` makes `get(k)` yield `Some(v)`. -/
theorem C1_insert_get_amended (st : MState) (k : Nat) (v : List Nat) (f : Nat)
    (hlen : v.length ≤ MAX_RECORD_BODYLEN)
    (hnk : noKeyPresent st (atomicKey k))
    (hcrc : crc32 (recContent (atomicKey k) v.length v) ≠ 0)
    (hins : (mappingInsertF f st k v).isSome) :
    (mappingInsertF f st k v).bind (fun st2 => mappingGetF f st2 k) = some (some v) := by
  obtain ⟨st2, hst2⟩ := Option.isSome_iff_exists.mp hins
  rw [hst2, Option.some_bind]
  have hst2i : insertWalk st (atomicKey k) (new_record (atomicKey k) v.length v) f 0
      = some st2 := by
    unfold mappingInsertF at hst2
    rw [if_pos hlen] at hst2
    exact hst2
  have hv : validateB (new_record (atomicKey k) v.length v) = true :=
    (validateB_new_record _ _ _).mpr hcrc
  have hk : recKey (new_record (atomicKey k) v.length v) = atomicKey k :=
    recKey_new_record _ _ _ (atomicKey_lt k)
  have hget := getWalk_after_insert st (atomicKey k) _ hnk hv hk f 0 st2 hst2i
  unfold mappingGetF getAtomicF
  rw [hget, recValue_new_record _ _ hlen, recLength_new_record,
    Nat.mod_eq_of_lt (show v.length < 2 ^ 32 by
      have : MAX_RECORD_BODYLEN = 728 := rfl
      omega)]
  show (if v.length ≤ MAX_RECORD_BODYLEN then some (some v)
    else assembleF f st2 k v.length (ceilDiv v.length MAX_RECORD_BODYLEN) 0 []) = some (some v)
  rw [if_pos hlen]

set_option maxRecDepth 40000 in
/-- C1, counterexample to the claim as stated: on a handle on which
`insert(k, [1])` already returned, `insert(k, [2])` returns but `get(k)`
yields `Some([1])`, not `Some([2])` (the second insert is dropped when a
valid record for the derived key exists). -/
theorem C1_counterexample :
    ([2] : List Nat).length ≤ MAX_RECORD_BODYLEN ∧
    ((mappingInsertF 2 emptyM 0 [1]).bind (fun s1 => mappingInsertF 2 s1 0 [2])).bind
      (fun s2 => mappingGetF 2 s2 0) = some (some [1]) ∧
    (some (some [1]) : Option (Option (List Nat))) ≠ some (some [2]) :=
  ⟨by decide, by decide, by decide⟩

set_option maxRecDepth 40000 in
theorem C1_insert_get_amended_witness :
    ([3] : List Nat).length ≤ MAX_RECORD_BODYLEN ∧
    crc32 (recContent (atomicKey 0) ([3] : List Nat).length [3]) ≠ 0 ∧
    (mappingInsertF 1 emptyM 0 [3]).bind (fun st2 => mappingGetF 1 st2 0)
      = some (some [3]) :=
  ⟨by decide, by decide,
    C1_insert_get_amended emptyM 0 [3] 1 (by decide)
      (fun o h => by
        rw [show emptyM.store o = zeroSlot from rfl, validateB_zeroSlot] at h
        cases h)
      (by decide) (by decide)⟩

/-- C6: `validate` succeeds exactly when the stored checksum is non-zero
and equals the CRC-32 of bytes `[4..768)` (both crate implementations
compute the same CRC); a stored checksum of zero is always rejected. -/
theorem C6_validate_iff (s : List Nat) (_h : s.length = RECORD_SIZE) :
    ((validateRec s).isSome = true ↔ (csumOf s ≠ 0 ∧ csumOf s = crc32 (s.drop 4))) ∧
    (csumOf s = 0 → validateRec s = none) := by
  constructor
  · by_cases hb : validateB s = true
    · rw [validateRec, if_pos hb]
      simp only [Option.isSome_some]
      refine iff_of_true trivial ?_
      unfold validateB newCrc32 legacyCrc32 at hb
      simp only [Bool.and_eq_true, Bool.or_eq_true, decide_eq_true_eq] at hb
      exact ⟨by omega, by rcases hb.2 with h | h <;> exact h⟩
    · rw [validateRec, if_neg hb]
      simp only [Option.isSome_none]
      refine iff_of_false (by simp) ?_
      rintro ⟨h1, h2⟩
      apply hb
      unfold validateB newCrc32 legacyCrc32
      simp only [Bool.and_eq_true, Bool.or_eq_true, decide_eq_true_eq]
      exact ⟨by omega, Or.inl h2⟩
  · intro h0
    rw [validateRec, if_neg ?_]
    unfold validateB
    simp [h0]

set_option maxRecDepth 40000 in
theorem C6_validate_iff_witness :
    (new_record 4 2 [6, 7]).length = RECORD_SIZE ∧
    (((validateRec (new_record 4 2 [6, 7])).isSome = true ↔
      (csumOf (new_record 4 2 [6, 7]) ≠ 0 ∧
       csumOf (new_record 4 2 [6, 7]) = crc32 ((new_record 4 2 [6, 7]).drop 4))) ∧
     (csumOf (new_record 4 2 [6, 7]) = 0 → validateRec (new_record 4 2 [6, 7]) = none)) :=
  ⟨by decide, C6_validate_iff _ (by decide)⟩

/-- C10: a freshly encoded record validates exactly when the CRC-32 of
its encoded bytes `[4..768)` is non-zero; `new_record` itself never
checks this, so a zero-CRC payload yields a record `validate` rejects. -/
theorem C10_new_record_validate_iff (dk len : Nat) (v : List Nat)
    (_h1 : v.length ≤ len) (_h2 : v.length ≤ MAX_RECORD_BODYLEN) :
    (validateRec (new_record dk len v)).isSome = true ↔
      crc32 ((new_record dk len v).drop 4) ≠ 0 := by
  rw [new_record_drop4]
  by_cases hb : validateB (new_record dk len v) = true
  · rw [validateRec, if_pos hb]
    simp only [Option.isSome_some]
    exact iff_of_true trivial ((validateB_new_record dk len v).mp hb)
  · rw [validateRec, if_neg hb]
    simp only [Option.isSome_none]
    exact iff_of_false (by simp) (fun hc => hb ((validateB_new_record dk len v).mpr hc))

set_option maxRecDepth 40000 in
theorem C10_new_record_validate_iff_witness :
    ([5] : List Nat).length ≤ 1 ∧ ([5] : List Nat).length ≤ MAX_RECORD_BODYLEN ∧
    ((validateRec (new_record 3 1 [5])).isSome = true ↔
      crc32 ((new_record 3 1 [5]).drop 4) ≠ 0) :=
  ⟨by decide, by decide, C10_new_record_validate_iff 3 1 [5] (by decide) (by decide)⟩

/-! ## C4: the insert trace -/

theorem ceilDiv_zero_left (n : Nat) : ceilDiv 0 n = 0 := by
  unfold ceilDiv
  cases n with
  | zero => rfl
  | succ n => exact Nat.div_eq_of_lt (by omega)

theorem ceilDiv_step (L n : Nat) (hn : 0 < n) (hL : 0 < L) :
    ceilDiv L n = ceilDiv (L - n) n + 1 := by
  unfold ceilDiv
  rcases le_or_lt L n with h | h
  · rw [Nat.sub_eq_zero_of_le h]
    rw [show L + n - 1 = (L - 1) + n by omega, Nat.add_div_right _ hn,
      Nat.div_eq_of_lt (by omega), Nat.div_eq_of_lt (by omega)]
  · rw [show L - n + n - 1 = L - 1 by omega, show L + n - 1 = (L - 1) + n by omega,
      Nat.add_div_right _ hn]

theorem chunksList_eq_range (n : Nat) (hn : 0 < n) :
    ∀ (fuel : Nat) (v : List α), v.length ≤ fuel →
      chunksList n v
        = (List.range (ceilDiv v.length n)).map (fun i => (v.drop (i * n)).take n) := by
  intro fuel
  induction fuel with
  | zero =>
    intro v hv
    have : v = [] := List.eq_nil_of_length_eq_zero (by omega)
    subst this
    simp [chunksList_nil, ceilDiv_zero_left]
  | succ fuel ih =>
    intro v hv
    cases v with
    | nil => simp [chunksList_nil, ceilDiv_zero_left]
    | cons x xs =>
      rw [chunksList_cons n hn]
      rw [ceilDiv_step _ n hn (by simp), List.range_succ_eq_map]
      rw [List.map_cons, List.map_map]
      have hdl : ((x :: xs).drop n).length = (x :: xs).length - n := by
        simp
      have hle : ((x :: xs).drop n).length ≤ fuel := by
        rw [hdl]
        simp only [List.length_cons] at hv ⊢
        omega
      congr 1
      · simp
      · rw [ih ((x :: xs).drop n) hle, hdl]
        apply List.map_congr_left
        intro i _
        simp only [Function.comp_apply, Nat.succ_eq_add_one]
        rw [List.drop_drop]
        congr 2
        ring_nf

/-- A fold of `insert_atomic` over a list of `(derived key, body,
length_override)` operations, as insert traces. -/
def foldOps (fuel : Nat) : MState → List (Nat × List Nat × Option Nat) → Option MState
  | st, [] => some st
  | st, (dk, v, l) :: rest =>
    (insertAtomicF fuel st dk v l).bind (fun st2 => foldOps fuel st2 rest)

/-- Modelled from the spec: the trace that §4.4 prescribes for
`insert(k, v)` — a single atomic record for `|v| ≤ BODY_MAX`, otherwise
a header at `AtomicKey(k)` with empty body and `length_override = |v|`,
followed by one record per index `i < ceil(|v|/BODY_MAX)` at
`ChunkKey(k, i)` holding `v[i·BODY_MAX .. min((i+1)·BODY_MAX, |v|)]`. -/
def claimOps (k : Nat) (v : List Nat) : List (Nat × List Nat × Option Nat) :=
  if v.length ≤ MAX_RECORD_BODYLEN then [(atomicKey k, v, none)]
  else (atomicKey k, [], some v.length) ::
    (List.range (ceilDiv v.length MAX_RECORD_BODYLEN)).map
      (fun i => (chunkKey k i,
        (v.drop (i * MAX_RECORD_BODYLEN)).take
          (min ((i + 1) * MAX_RECORD_BODYLEN) v.length - i * MAX_RECORD_BODYLEN), none))

theorem take_min_slice (v : List α) (n i : Nat) :
    (v.drop (i * n)).take (min ((i + 1) * n) v.length - i * n)
      = (v.drop (i * n)).take n := by
  rw [List.take_eq_take]
  rw [List.length_drop]
  have h1 : (i + 1) * n = i * n + n := by ring
  omega

theorem chunkFold_eq_foldOps (fuel k n : Nat) (hn : 0 < n) :
    ∀ (lfuel : Nat) (v : List Nat) (st : MState) (i : Nat), v.length ≤ lfuel →
      chunkFold fuel k st (chunksList n v) i
        = foldOps fuel st ((List.range (ceilDiv v.length n)).map
            (fun j => (chunkKey k (i + j), (v.drop (j * n)).take n, none))) := by
  intro lfuel
  induction lfuel with
  | zero =>
    intro v st i hv
    have : v = [] := List.eq_nil_of_length_eq_zero (by omega)
    subst this
    simp [chunksList_nil, ceilDiv_zero_left, chunkFold, foldOps]
  | succ lfuel ih =>
    intro v st i hv
    cases v with
    | nil => simp [chunksList_nil, ceilDiv_zero_left, chunkFold, foldOps]
    | cons x xs =>
      rw [chunksList_cons n hn]
      rw [ceilDiv_step _ n hn (by simp), List.range_succ_eq_map, List.map_cons]
      show (insertAtomicF fuel st (chunkKey k i) ((x :: xs).take n) none).bind
          (fun st2 => chunkFold fuel k st2 (chunksList n ((x :: xs).drop n)) (i + 1)) = _
      show _ = (insertAtomicF fuel st (chunkKey k (i + 0)) (((x :: xs).drop (0 * n)).take n) none).bind
          (fun st2 => foldOps fuel st2 _)
      simp only [Nat.add_zero, Nat.zero_mul, List.drop_zero]
      cases insertAtomicF fuel st (chunkKey k i) ((x :: xs).take n) none with
      | none => rfl
      | some st2 =>
        simp only [Option.some_bind]
        have hle : ((x :: xs).drop n).length ≤ lfuel := by
          simp only [List.length_drop, List.length_cons] at hv ⊢
          omega
        rw [ih ((x :: xs).drop n) st2 (i + 1) hle]
        have hdl : ((x :: xs).drop n).length = (x :: xs).length - n := by simp
        rw [hdl, List.map_map]
        apply congrArg
        apply List.map_congr_left
        intro j _
        simp only [Function.comp_apply, Nat.succ_eq_add_one]
        rw [List.drop_drop]
        have h1 : i + 1 + j = i + (j + 1) := by ring
        rw [h1]
        congr 3
        ring_nf

theorem mappingInsertF_eq_foldOps (fuel : Nat) (st : MState) (k : Nat) (v : List Nat) :
    mappingInsertF fuel st k v = foldOps fuel st (claimOps k v) := by
  unfold mappingInsertF claimOps
  by_cases hl : v.length ≤ MAX_RECORD_BODYLEN
  · rw [if_pos hl, if_pos hl]
    show _ = (insertAtomicF fuel st (atomicKey k) v none).bind (fun st2 => foldOps fuel st2 [])
    cases insertAtomicF fuel st (atomicKey k) v none with
    | none => rfl
    | some st2 => rfl
  · rw [if_neg hl, if_neg hl]
    show _ = (insertAtomicF fuel st (atomicKey k) [] (some v.length)).bind
        (fun st2 => foldOps fuel st2 _)
    cases insertAtomicF fuel st (atomicKey k) [] (some v.length) with
    | none => rfl
    | some st1 =>
      simp only [Option.some_bind]
      rw [chunkFold_eq_foldOps fuel k MAX_RECORD_BODYLEN (by decide) v.length v st1 0 le_rfl]
      apply congrArg
      apply List.map_congr_left
      intro j _
      simp only [Nat.zero_add]
      rw [take_min_slice]

/-- C4: `Mapping::insert` performs exactly the spec's trace: one atomic
record at `AtomicKey(k)` when `|v| ≤ BODY_MAX` (so a 728-byte value
fits in one record), and otherwise a header record at `AtomicKey(k)`
with length `|v|` and empty body plus `ceil(|v|/BODY_MAX)` chunk records
at `ChunkKey(k, i)` holding `v[i·728 .. min((i+1)·728, |v|)]`. -/
theorem C4_insert_layout (fuel : Nat) (st : MState) (k : Nat) (v : List Nat) :
    mappingInsertF fuel st k v = foldOps fuel st (claimOps k v) :=
  mappingInsertF_eq_foldOps fuel st k v

/-! ## C5 and C8: probe-sequence behaviour -/

/-- A valid record under an unrelated derived key (7), used to build
adversarial table states. -/
def alienRec : List Nat := new_record 7 1 [42]

set_option maxRecDepth 40000 in
theorem validateB_alienRec : validateB alienRec = true := by decide

theorem recKey_alienRec : recKey alienRec = 7 :=
  recKey_new_record 7 1 [42] (by norm_num)

/-- A state in which every probe entry except the skipped entry 0
points at the same valid record for another key: the insert loop can
never place, match, or fail. -/
def stAdv : MState :=
  { allocPtr := 9
    slots := fun e => if e = 0 then 0 else 1
    store := fun p => if p = 1 then alienRec else zeroSlot }

/-- C5: `really_insert_atomic` has no probe bound and no capacity
error.  On a table whose probe path holds only valid foreign records it
runs forever: for every fuel, no matter how large, the walk neither
places the record nor returns — in particular it can never fail with a
capacity-exhausted error after a bounded number of probes, because
`probe_sequence` is the unbounded iterator `(0..).map(|v| i + v)`. -/
theorem C5_unbounded_probe : ∀ fuel, insertAtomicF fuel stAdv 5 [9] none = none := by
  have key : ∀ fuel j, insertWalk stAdv 5 (new_record 5 1 [9]) fuel j = none := by
    intro fuel
    induction fuel with
    | zero => intro j; exact insertWalk_zero _ _ _ _
    | succ fuel ih =>
      intro j
      rw [insertWalk_succ]
      by_cases h0 : probeEntry 5 j = 0
      · rw [if_pos h0]
        exact ih (j + 1)
      · rw [if_neg h0]
        have hs : stAdv.slots (probeEntry 5 j) = 1 := by
          show (if probeEntry 5 j = 0 then 0 else 1) = 1
          rw [if_neg h0]
        have hst : stAdv.store (stAdv.slots (probeEntry 5 j)) = alienRec := by
          rw [hs]
          show (if (1 : Nat) = 1 then alienRec else zeroSlot) = alienRec
          rw [if_pos rfl]
        rw [if_neg (by rw [hs]; omega), hst, if_pos validateB_alienRec,
          if_neg (by rw [recKey_alienRec]; omega)]
        exact ih (j + 1)
  intro fuel
  exact key fuel 0

/-- A state whose entry `N - 1` holds a valid foreign record and whose
other entries are free. -/
def stWrap : MState :=
  { allocPtr := 5
    slots := fun e => if e = numEntries - 1 then 1 else 0
    store := fun p => if p = 1 then alienRec else zeroSlot }

set_option maxRecDepth 40000 in
/-- C8, counterexample to the claim as stated: a derived key whose
initial hash is `N - 1` probes entry `N - 1` (occupied by a valid
foreign record), then wraps to entry 0 — which the code skips
(`if offset == 0 continue`) — and places at entry 1.  Slot 0 stays
untouched, so it is not a normal usable slot. -/
theorem C8_counterexample :
    stWrap.slots (numEntries - 1) ≠ 0 ∧
    validateB (stWrap.store (stWrap.slots (numEntries - 1))) = true ∧
    (insertWalk stWrap (numEntries - 1) (new_record (numEntries - 1) 1 [9]) 3 0).map
      (fun st3 => (st3.slots 0, st3.slots 1)) = some (0, 5) :=
  ⟨by decide, by decide, by decide⟩

/-- C8, amended: the probe sequence visits `(low64(dk) + j) mod N` for
`j = 0, 1, 2, …`, wrapping around `N`, but entry 0 is reserved (both
walks skip it): an insert never modifies entry 0 and a lookup never
reads it, so a key whose initial hash is `N - 1` wraps past slot 0 to
the next free slot. -/
theorem C8_probe_wrap_amended :
    (∀ dk j, probeEntry dk j = (dk % 2 ^ 64 + j) % numEntries ∧
      probeEntry dk (j + numEntries) = probeEntry dk j) ∧
    (∀ f st dk rec j st3, insertWalk st dk rec f j = some st3 →
      st3.slots 0 = st.slots 0) ∧
    (∀ f st dk j z,
      getWalk { st with slots := fun e => if e = 0 then z else st.slots e } dk f j
        = getWalk st dk f j) := by
  refine ⟨fun dk j => ⟨rfl, ?_⟩, fun f st dk rec j st3 h => ?_, fun f st dk => ?_⟩
  · unfold probeEntry
    rw [← Nat.add_assoc, Nat.add_mod_right]
  · rcases insertWalk_shape st dk rec f j st3 h with hsh | ⟨e, he, _, hsh⟩
    · rw [hsh]
    · rw [hsh, placeAt_slots, if_neg (fun h0 => he h0.symm)]
  · induction f with
    | zero => intro j z; rfl
    | succ f ih =>
      intro j z
      rw [getWalk_succ, getWalk_succ]
      by_cases h0 : probeEntry dk j = 0
      · rw [if_pos h0, if_pos h0]
        exact ih (j + 1) z
      · have hsl2 : ({ st with slots := fun e => if e = 0 then z else st.slots e }
            : MState).slots (probeEntry dk j) = st.slots (probeEntry dk j) := by
          show (if probeEntry dk j = 0 then z else st.slots (probeEntry dk j)) = _
          rw [if_neg h0]
        have hstp : ∀ p, ({ st with slots := fun e => if e = 0 then z else st.slots e }
            : MState).store p = st.store p := fun _ => rfl
        rw [if_neg h0, if_neg h0, hsl2, hstp]
        by_cases hsl : st.slots (probeEntry dk j) = 0
        · rw [if_pos hsl, if_pos hsl]
        · rw [if_neg hsl, if_neg hsl]
          by_cases hv : validateB (st.store (st.slots (probeEntry dk j))) = true
          · rw [if_pos hv, if_pos hv]
            by_cases hk : recKey (st.store (st.slots (probeEntry dk j))) = dk
            · rw [if_pos hk, if_pos hk]
            · rw [if_neg hk, if_neg hk]
              exact ih (j + 1) z
          · rw [if_neg hv, if_neg hv]

theorem C8_probe_wrap_amended_witness :
    insertWalk emptyM 5 (new_record 5 1 [9]) 1 0
      = some ((insertWalk emptyM 5 (new_record 5 1 [9]) 1 0).getD emptyM) ∧
    ((insertWalk emptyM 5 (new_record 5 1 [9]) 1 0).getD emptyM).slots 0
      = emptyM.slots 0 :=
  ⟨rfl, C8_probe_wrap_amended.2.1 1 emptyM 5 (new_record 5 1 [9]) 0 _ rfl⟩

/-! ## C7: chunked lookup with a missing chunk -/

/-- C7: a `get` whose header record is found with a chunked length but
whose chunk `i0` is missing returns not-found (`some none`), with no
panic and no partial data, provided the chunks before `i0` carry their
expected body lengths (as every chunk written by `insert` does). -/
theorem C7_missing_chunk_not_found (f : Nat) (st : MState) (k L i0 : Nat)
    (h1 : (getAtomicF f st (atomicKey k)).map Prod.snd = some L)
    (h2 : MAX_RECORD_BODYLEN < L)
    (h3 : i0 < ceilDiv L MAX_RECORD_BODYLEN)
    (h4 : getAtomicF f st (chunkKey k i0) = none)
    (h5 : ∀ j, j < i0 → (getAtomicF f st (chunkKey k j)).map (fun p => p.1.length)
        = some (min MAX_RECORD_BODYLEN (L - MAX_RECORD_BODYLEN * j))) :
    mappingGetF f st k = some none := by
  have aux : ∀ rem i acc, i ≤ i0 → i0 < i + rem →
      assembleF f st k L rem i acc = some none := by
    intro rem
    induction rem with
    | zero => intro i acc hi hlt; omega
    | succ rem ih =>
      intro i acc hi hlt
      rw [assembleF_succ]
      by_cases hii : i = i0
      · rw [hii, h4]
      · have hilt : i < i0 := by omega
        have h5i := h5 i hilt
        rcases hci : getAtomicF f st (chunkKey k i) with _ | ⟨db, l2⟩
        · rw [hci] at h5i
        · rw [hci] at h5i
          simp only [Option.map_some', Option.some_inj] at h5i
          show (if db.length = min MAX_RECORD_BODYLEN (L - MAX_RECORD_BODYLEN * i) then
            assembleF f st k L rem (i + 1) (acc ++ db) else none) = some none
          rw [if_pos h5i]
          exact ih (i + 1) (acc ++ db) (by omega) (by omega)
  rcases hg : getAtomicF f st (atomicKey k) with _ | ⟨top, len⟩
  · rw [hg] at h1; cases h1
  · rw [hg] at h1
    simp only [Option.map_some', Option.some_inj] at h1
    unfold mappingGetF
    rw [hg]
    show (if len ≤ MAX_RECORD_BODYLEN then some (some top)
      else assembleF f st k len (ceilDiv len MAX_RECORD_BODYLEN) 0 []) = some none
    rw [if_neg (by omega), h1]
    exact aux (ceilDiv L MAX_RECORD_BODYLEN) 0 [] (by omega) (by omega)

/-- The concrete state for the C7 witness: a header for caller key 0
with total length 1456 at the probe entry of `atomicKey 0`, chunk 0
present at the probe entry of `chunkKey 0 0`, chunk 1 absent. -/
def stC7 : MState :=
  { allocPtr := 3
    slots := fun e => if e = 25418282 then 1 else if e = 66252137 then 2 else 0
    store := fun p =>
      if p = 1 then new_record (atomicKey 0) 1456 []
      else if p = 2 then new_record (chunkKey 0 0) 728 (List.replicate 728 1)
      else zeroSlot }

set_option maxRecDepth 40000 in
theorem C7_missing_chunk_not_found_witness :
    (getAtomicF 1 stC7 (atomicKey 0)).map Prod.snd = some 1456 ∧
    MAX_RECORD_BODYLEN < 1456 ∧
    1 < ceilDiv 1456 MAX_RECORD_BODYLEN ∧
    getAtomicF 1 stC7 (chunkKey 0 1) = none ∧
    mappingGetF 1 stC7 0 = some none :=
  ⟨by decide, by decide, by decide, by decide,
    C7_missing_chunk_not_found 1 stC7 0 1456 1 (by decide) (by decide) (by decide)
      (by decide)
      (by decide)⟩

/-! ## C3: idempotence of repeated inserts -/

/-- The record an atomic-insert operation encodes. -/
def opRec (op : Nat × List Nat × Option Nat) : List Nat :=
  new_record op.1 ((op.2.2).getD op.2.1.length) op.2.1

theorem insertAtomicF_def (fuel : Nat) (st : MState) (dk : Nat) (v : List Nat)
    (l : Option Nat) :
    insertAtomicF fuel st dk v l = insertWalk st dk (opRec (dk, v, l)) fuel 0 := rfl

theorem foldOps_nil (fuel : Nat) (st : MState) : foldOps fuel st [] = some st := rfl

theorem foldOps_cons (fuel : Nat) (st : MState) (dk : Nat) (v : List Nat) (l : Option Nat)
    (rest : List (Nat × List Nat × Option Nat)) :
    foldOps fuel st ((dk, v, l) :: rest)
      = (insertAtomicF fuel st dk v l).bind (fun st2 => foldOps fuel st2 rest) := rfl

/-- A successful fold of inserts over a good state preserves every
already-successful lookup. -/
theorem foldOps_preserves_get (f g : Nat) :
    ∀ (ops : List (Nat × List Nat × Option Nat)) (st st1 : MState), goodState st →
      foldOps f st ops = some st1 →
      ∀ dk j x, getWalk st dk g j = some x → getWalk st1 dk g j = some x := by
  intro ops
  induction ops with
  | nil =>
    intro st st1 hg h dk j x hx
    rw [foldOps_nil] at h
    rw [← Option.some_inj.mp h]
    exact hx
  | cons op rest ih =>
    obtain ⟨dk0, v0, l0⟩ := op
    intro st st1 hg h dk j x hx
    rw [foldOps_cons] at h
    rcases hbind : insertAtomicF f st dk0 v0 l0 with _ | stm
    · rw [hbind] at h; cases h
    · rw [hbind, Option.some_bind] at h
      rw [insertAtomicF_def] at hbind
      have hgm : goodState stm := goodState_insertWalk st dk0 _ hg f 0 stm hbind
      have hxm : getWalk stm dk g j = some x :=
        getWalk_preserved st dk0 _ hg f 0 stm hbind dk g j x hx
      exact ih stm st1 hgm h dk j x hxm

theorem goodState_foldOps (f : Nat) :
    ∀ (ops : List (Nat × List Nat × Option Nat)) (st st1 : MState), goodState st →
      foldOps f st ops = some st1 → goodState st1 := by
  intro ops
  induction ops with
  | nil =>
    intro st st1 hg h
    rw [foldOps_nil] at h
    rw [← Option.some_inj.mp h]
    exact hg
  | cons op rest ih =>
    obtain ⟨dk0, v0, l0⟩ := op
    intro st st1 hg h
    rw [foldOps_cons] at h
    rcases hbind : insertAtomicF f st dk0 v0 l0 with _ | stm
    · rw [hbind] at h; cases h
    · rw [hbind, Option.some_bind] at h
      rw [insertAtomicF_def] at hbind
      exact ih stm st1 (goodState_insertWalk st dk0 _ hg f 0 stm hbind) h

/-- After the first pass, every operation of the trace either encoded an
invalid (zero-CRC) record, or its derived key is now found by lookup. -/
theorem foldOps_pass1 (f : Nat) :
    ∀ (ops : List (Nat × List Nat × Option Nat)) (st st1 : MState), goodState st →
      (∀ op ∈ ops, (op.1 : Nat) < 2 ^ 256) →
      foldOps f st ops = some st1 →
      ∀ op ∈ ops, validateB (opRec op) = false ∨ ∃ x, getWalk st1 op.1 f 0 = some x := by
  intro ops
  induction ops with
  | nil => intro st st1 _ _ _ op hop; cases hop
  | cons op0 rest ih =>
    obtain ⟨dk0, v0, l0⟩ := op0
    intro st st1 hg hklt h op hop
    rw [foldOps_cons] at h
    rcases hbind : insertAtomicF f st dk0 v0 l0 with _ | stm
    · rw [hbind] at h; cases h
    · rw [hbind, Option.some_bind] at h
      rw [insertAtomicF_def] at hbind
      have hgm : goodState stm := goodState_insertWalk st dk0 _ hg f 0 stm hbind
      rcases List.mem_cons.mp hop with hop0 | hoprest
      · subst hop0
        by_cases hv : validateB (opRec (dk0, v0, l0)) = true
        · right
          have hkey : recKey (opRec (dk0, v0, l0)) = dk0 :=
            recKey_new_record _ _ _ (hklt (dk0, v0, l0) (by simp))
          obtain ⟨x, hx⟩ := getWalk_after_insert_some st dk0 _ hv hkey f 0 stm hbind
          exact ⟨x, foldOps_preserves_get f f rest stm st1 hgm h dk0 0 x hx⟩
        · exact Or.inl (by simpa using hv)
      · exact ih stm st1 hgm (fun o ho => hklt o (by simp [ho])) h op hoprest

/-- The second pass of the same trace leaves the observable view of the
state unchanged: each operation either finds its key (a strict no-op)
or rewrites an invalid record invisibly. -/
theorem foldOps_pass2 (f g : Nat) :
    ∀ (ops : List (Nat × List Nat × Option Nat)) (st1 st st2 : MState),
      (∀ op ∈ ops, validateB (opRec op) = false ∨ ∃ x, getWalk st1 op.1 f 0 = some x) →
      goodState st → (∀ e, normView st e = normView st1 e) →
      foldOps g st ops = some st2 →
      (∀ e, normView st2 e = normView st1 e) ∧ goodState st2 := by
  intro ops
  induction ops with
  | nil =>
    intro st1 st st2 _ hgst hnv h
    rw [foldOps_nil] at h
    rw [← Option.some_inj.mp h]
    exact ⟨hnv, hgst⟩
  | cons op0 rest ih =>
    obtain ⟨dk0, v0, l0⟩ := op0
    intro st1 st st2 hops hgst hnv h
    rw [foldOps_cons] at h
    rcases hbind : insertAtomicF g st dk0 v0 l0 with _ | stm
    · rw [hbind] at h; cases h
    · rw [hbind, Option.some_bind] at h
      rw [insertAtomicF_def] at hbind
      rcases hops (dk0, v0, l0) (by simp) with hv0 | ⟨x, hx⟩
      · obtain ⟨hnvm, hgm⟩ := insertWalk_crc0 st dk0 _ hv0 hgst g 0 stm hbind
        exact ih st1 stm st2 (fun o ho => hops o (by simp [ho])) hgm
          (fun e => (hnvm e).trans (hnv e)) h
      · have hxst : getWalk st dk0 f 0 = some x := by
          rw [getWalk_congr st st1 hnv dk0 f 0]
          exact hx
        have hnoop : stm = st := insertWalk_noop st dk0 _ g f 0 stm x hxst hbind
        subst hnoop
        exact ih st1 stm st2 (fun o ho => hops o (by simp [ho])) hgst hnv h

theorem claimOps_keys_lt (k : Nat) (v : List Nat) :
    ∀ op ∈ claimOps k v, (op.1 : Nat) < 2 ^ 256 := by
  intro op hop
  unfold claimOps at hop
  by_cases hl : v.length ≤ MAX_RECORD_BODYLEN
  · rw [if_pos hl] at hop
    simp only [List.mem_singleton] at hop
    rw [hop]
    exact atomicKey_lt k
  · rw [if_neg hl] at hop
    rcases List.mem_cons.mp hop with h | h
    · rw [h]
      exact atomicKey_lt k
    · obtain ⟨i, _, hi⟩ := List.mem_map.mp h
      rw [← hi]
      exact chunkKey_lt k i

/-- C3: repeating `insert(k, v)` is observationally a no-op.  From any
reachable (good) state, if `insert(k, v)` yields `st1` and a second
`insert(k, v)` yields `st2`, then every probe entry observes the same
record in `st2` as in `st1`, and every subsequent `get` (any key, any
fuel) returns the same result in both. -/
theorem C3_insert_idempotent (st : MState) (k : Nat) (v : List Nat) (f g : Nat)
    (hgs : goodState st) (st1 st2 : MState)
    (h1 : mappingInsertF f st k v = some st1)
    (h2 : mappingInsertF g st1 k v = some st2) :
    (∀ e, normView st2 e = normView st1 e) ∧
    ∀ k2 h, mappingGetF h st2 k2 = mappingGetF h st1 k2 := by
  rw [mappingInsertF_eq_foldOps] at h1 h2
  have hg1 : goodState st1 := goodState_foldOps f (claimOps k v) st st1 hgs h1
  have hinv := foldOps_pass1 f (claimOps k v) st st1 hgs (claimOps_keys_lt k v) h1
  obtain ⟨hnv, _⟩ := foldOps_pass2 f g (claimOps k v) st1 st1 st2 hinv hg1 (fun _ => rfl) h2
  exact ⟨hnv, fun k2 h => mappingGetF_congr st2 st1 hnv h k2⟩

/-- The two concrete states of the C3 witness. -/
def c3s1 : MState := (mappingInsertF 1 emptyM 0 [7]).getD emptyM

def c3s2 : MState := (mappingInsertF 1 c3s1 0 [7]).getD emptyM

set_option maxRecDepth 40000 in
theorem C3_insert_idempotent_witness :
    goodState emptyM ∧
    ((∀ e, normView c3s2 e = normView c3s1 e) ∧
      ∀ k2 h, mappingGetF h c3s2 k2 = mappingGetF h c3s1 k2) :=
  ⟨fun _ _ => rfl,
    C3_insert_idempotent emptyM 0 [7] 1 1 (fun _ _ => rfl) c3s1 c3s2 rfl rfl⟩

/-! ## The HAMT implementation of `src/record.rs` and `src/table.rs`

`Record` is either a data leaf (32-byte key plus value) or a HAMT node
(root flag, 64-bit occupancy bitmap, child pointers).  A `RecordPtr` is
either in-memory (`Sum.inl`) or an on-disk offset (`Sum.inr`).  Loads
from disk are a parameter `ld` (`Table::load_record`, whose `expect`
panic on an unparseable record is modelled as `none`). -/

inductive RecordT where
  | Data (key : List Nat) (val : List Nat) : RecordT
  | HamtNode (isRoot : Bool) (bitmap : Nat) (ptrs : List (RecordT ⊕ Nat)) : RecordT

/-- `u64::count_ones` (the bitmap is a `u64`). -/
def popCount64 (n : Nat) : Nat :=
  (List.range 64).foldl (fun a i => a + n / 2 ^ i % 2) 0

/-- The first 16 bytes of the 32-byte key as a `u128`
(`u128::from_le_bytes(*array_ref![&key, 0, 16])`; the code comments
"TODO use all the bits"). -/
def ikeyOf (key : List Nat) : Nat := leBytesToNat (key.take 16)

/-- The loop of `Table::lookup`, with fuel; `some none` is Rust's
`None` (key absent), `none` is fuel exhaustion or a panicking
`load_record`.  `hindex = ikey & 0b111111`, the child index is the
popcount of the bitmap below `hindex`, and `ikey` shifts right 6 bits
per level. -/
def lookupF (ld : Nat → Option RecordT) : Nat → RecordT → Nat → List Nat →
    Option (Option (List Nat))
  | 0, _, _, _ => none
  | _ + 1, RecordT.Data dkey dval, _, key =>
    if key = dkey then some (some dval) else some none
  | fuel + 1, RecordT.HamtNode _ bitmap ptrs, ikey, key =>
    if bitmap / 2 ^ (ikey % 64) % 2 = 1 then
      match ptrs.getD (popCount64 (bitmap % 2 ^ (ikey % 64))) (Sum.inr 0) with
      | Sum.inl r => lookupF ld fuel r (ikey / 64) key
      | Sum.inr o =>
        match ld o with
        | none => none
        | some r => lookupF ld fuel r (ikey / 64) key
    else some none

/-- `Table::insert_helper`, with fuel (`none` = the recursion did not
finish).  On a data leaf it rebuilds a fresh node, inserts the new key,
then re-inserts the displaced key shifted by `6 * depth` — with no key
comparison.  (`existing_ikey >> (6 * depth)` is modelled as division by
`2 ^ (6 * depth)`; at every input used here the shifted value is 0, as
it also is under Rust's masked or panicking overflow semantics.) -/
def insertHelperF (ld : Nat → Option RecordT) :
    Nat → Nat → RecordT → Nat → List Nat → List Nat → Option RecordT
  | 0, _, _, _, _, _ => none
  | fuel + 1, depth, RecordT.Data ek ev, ikey, key, value =>
    (insertHelperF ld fuel depth (RecordT.HamtNode false 0 []) ikey key value).bind
      (fun a => insertHelperF ld fuel depth a (ikeyOf ek / 2 ^ (6 * depth)) ek ev)
  | fuel + 1, depth, RecordT.HamtNode r bitmap ptrs, ikey, key, value =>
    if bitmap / 2 ^ (ikey % 64) % 2 = 1 then
      let idx := popCount64 (bitmap % 2 ^ (ikey % 64))
      let pLoad : Option RecordT :=
        match ptrs.getD idx (Sum.inr 0) with
        | Sum.inl r2 => some r2
        | Sum.inr o => ld o
      pLoad.bind (fun ptr =>
        (insertHelperF ld fuel (depth + 1) ptr (ikey / 64) key value).map
          (fun c => RecordT.HamtNode r bitmap (ptrs.set idx (Sum.inl c))))
    else
      let bitmap2 := bitmap ||| 2 ^ (ikey % 64)
      some (RecordT.HamtNode r bitmap2
        (ptrs.insertIdx (popCount64 (bitmap2 % 2 ^ (ikey % 64)))
          (Sum.inl (RecordT.Data key value))))

/-- `Table::insert`: a no-op when `lookup` already finds the key,
otherwise `insert_helper` from the root.  (The dirty flag and the
1-in-1000 randomized flush, which run only after `insert_helper`
returns, are omitted.) -/
def tableInsertF (ld : Nat → Option RecordT) (fuel : Nat) (root : RecordT)
    (key value : List Nat) : Option RecordT :=
  match lookupF ld fuel root (ikeyOf key) key with
  | none => none
  | some (some _) => some root
  | some none => insertHelperF ld fuel 0 root (ikeyOf key) key value

/-- `Record::new_borrowed` of `src/record.rs`: parse an on-disk record.
The slice must be at least 32 bytes, begin with the 16-byte magic
divider, carry `kind` at bytes `[8..12)` and `length` at `[12..16)`
(overlapping the divider), and a data record's value is decoded as
`key_and_val[..32]` — the key bytes. -/
def newBorrowed (b : List Nat) (divider : Nat) : Option RecordT :=
  if b.length < 16 + 16 then none
  else if leBytesToNat (b.take 16) ≠ divider then none
  else
    let recordKind := leBytesToNat ((b.drop 8).take 4)
    let recordLength := leBytesToNat ((b.drop 12).take 4)
    if b.length < recordLength + 16 then none
    else if recordKind = 0 then
      let keyAndVal := (b.drop 16).take recordLength
      if keyAndVal.length < 32 then none
      else some (RecordT.Data (keyAndVal.take 32) (keyAndVal.take 32))
    else if recordKind = 1 ∨ recordKind = 2 then
      let hamtRaw := (b.drop 16).take recordLength
      if hamtRaw.length < 8 then none
      else
        let hamtBitmap := leBytesToNat (hamtRaw.take 8)
        let hamtRest := hamtRaw.drop 8
        if popCount64 hamtBitmap * 8 ≠ hamtRest.length then none
        else some (RecordT.HamtNode (recordKind = 2) hamtBitmap
          ((chunksList 8 hamtRest).map (fun ch => Sum.inr (leBytesToNat ch))))
    else none

/-- The on-disk pointers of a node; `none` when any child is still
in-memory (`write_bytes` panics there). -/
def allOnDisk : List (RecordT ⊕ Nat) → Option (List Nat)
  | [] => some []
  | Sum.inl _ :: _ => none
  | Sum.inr o :: rest => (allOnDisk rest).map (o :: ·)

/-- `Record::write_bytes`: 8 bytes of SipHash-1-3 checksum (keyed by the
divider; the hash itself is the parameter `sip`), 4 bytes of kind,
4 bytes of length, then the payload.  No divider is written. -/
def writeBytesF (sip : Nat → List Nat → Nat) (divider : Nat) :
    RecordT → Option (List Nat)
  | RecordT.Data k v =>
    let body := natToLeBytes 4 0 ++ natToLeBytes 4 ((v.length + 32) % 2 ^ 32) ++ k ++ v
    some (natToLeBytes 8 (sip divider body % 2 ^ 64) ++ body)
  | RecordT.HamtNode r bitmap ptrs =>
    (allOnDisk ptrs).map (fun offs =>
      let body := natToLeBytes 4 (if r then 2 else 1) ++
        natToLeBytes 4 ((offs.length * 8 + 8) % 2 ^ 32) ++
        natToLeBytes 8 (bitmap % 2 ^ 64) ++
        (offs.map (natToLeBytes 8)).flatten
      natToLeBytes 8 (sip divider body % 2 ^ 64) ++ body)

/-! ## C2: the persistence round trip is broken -/

theorem newBorrowed_take16_ne (b : List Nat) (h32 : ¬ b.length < 16 + 16)
    (hne : leBytesToNat (b.take 16) ≠ 1) : newBorrowed b 1 = none := by
  unfold newBorrowed
  rw [if_neg h32, if_pos hne]

set_option maxRecDepth 8000 in
set_option maxHeartbeats 2000000 in
/-- C2: the flush/reopen round trip cannot return `Some(v)`.
`Record::new_borrowed` demands that a record start with the 16-byte
divider and then decodes a data record's value as `key_and_val[..32]` —
the key bytes, not the stored value (first two conjuncts, on a crafted
divider-prefixed record whose payload after the key is `[9,9,9,9]`).
And `Record::write_bytes` never writes the divider, so a record written
by `Table::flush` fails to parse no matter what checksum SipHash-1-3
produces (third conjunct, over every possible hash function). -/
theorem C2_reopen_roundtrip_bug :
    (newBorrowed
        (natToLeBytes 16 (1 + 36 * 2 ^ 96) ++ (List.replicate 32 5 ++ [9, 9, 9, 9]))
        (1 + 36 * 2 ^ 96)
      = some (RecordT.Data (List.replicate 32 5) (List.replicate 32 5))) ∧
    (List.replicate 32 5 : List Nat) ≠ [9, 9, 9, 9] ∧
    ∀ sip : Nat → List Nat → Nat,
      (writeBytesF sip 1 (RecordT.Data (List.replicate 32 5) [7])).bind
        (fun bs => newBorrowed bs 1) = none := by
  refine ⟨rfl, by decide, fun sip => ?_⟩
  rw [show writeBytesF sip 1 (RecordT.Data (List.replicate 32 5) [7]) = some
      (natToLeBytes 8 (sip 1 (natToLeBytes 4 0 ++
          natToLeBytes 4 ((([7] : List Nat).length + 32) % 2 ^ 32) ++
          List.replicate 32 5 ++ [7]) % 2 ^ 64) ++
        (natToLeBytes 4 0 ++ natToLeBytes 4 ((([7] : List Nat).length + 32) % 2 ^ 32) ++
          List.replicate 32 5 ++ [7])) from rfl,
    Option.some_bind]
  rw [show (([7] : List Nat).length + 32) % 2 ^ 32 = 33 from by norm_num]
  generalize sip 1 (natToLeBytes 4 0 ++ natToLeBytes 4 33 ++ List.replicate 32 5 ++ [7]) % 2 ^ 64
    = sv
  apply newBorrowed_take16_ne
  · simp [natToLeBytes_length]
  · have htake : ((natToLeBytes 8 sv ++
        (natToLeBytes 4 0 ++ natToLeBytes 4 33 ++ List.replicate 32 5 ++ [7])).take 16)
        = natToLeBytes 8 sv ++ (natToLeBytes 4 0 ++ natToLeBytes 4 33) := by
      rw [show (16 : Nat) = (natToLeBytes 8 sv).length + 8 by rw [natToLeBytes_length]]
      rw [List.take_append]
      congr 1
    rw [htake, leBytesToNat_append, leBytesToNat_natToLeBytes, natToLeBytes_length,
      show leBytesToNat (natToLeBytes 4 0 ++ natToLeBytes 4 33) = 141733920768 from by decide]
    have h256 : (256 : Nat) ^ 8 = 18446744073709551616 := by norm_num
    rw [h256]
    omega

/-! ## C9: `Table::insert` loops forever on keys sharing 16 bytes -/

/-- `insert_helper` on a data leaf whose first 16 key bytes (the whole
`ikey`) coincide with the inserted key's: the leaf is split, the new key
placed, and the displaced key re-collides at every depth — the recursion
never reaches fuel 0 with a result, for any fuel. -/
theorem insertHelper_data_loop (ld : Nat → Option RecordT) :
    ∀ fuel d (x vx y vy : List Nat), ikeyOf x = 0 → ikeyOf y = 0 →
      insertHelperF ld fuel d (RecordT.Data x vx) 0 y vy = none := by
  intro fuel
  induction fuel using Nat.strong_induction_on with
  | _ fuel ih =>
    rcases fuel with _ | fuel1
    · intro d x vx y vy hx hy; rfl
    rcases fuel1 with _ | m
    · intro d x vx y vy hx hy; rfl
    intro d x vx y vy hx hy
    show (insertHelperF ld (m + 1) d (RecordT.HamtNode false 0 []) 0 y vy).bind
      (fun a => insertHelperF ld (m + 1) d a (ikeyOf x / 2 ^ (6 * d)) x vx) = none
    rw [show insertHelperF ld (m + 1) d (RecordT.HamtNode false 0 []) 0 y vy
        = some (RecordT.HamtNode false 1 [Sum.inl (RecordT.Data y vy)]) from rfl,
      Option.some_bind, hx, Nat.zero_div]
    show (insertHelperF ld m (d + 1) (RecordT.Data y vy) 0 x vx).map
      (fun c => RecordT.HamtNode false 1
        ([Sum.inl (RecordT.Data y vy)].set 0 (Sum.inl c))) = none
    rw [ih m (by omega) (d + 1) y vy x vx hy hx]
    rfl

/-- The empty root HAMT of a fresh table. -/
def emptyRoot : RecordT := RecordT.HamtNode true 0 []

/-- The root after inserting the all-zero key with value `[7]`. -/
def root1 : RecordT :=
  RecordT.HamtNode true 1 [Sum.inl (RecordT.Data (List.replicate 32 0) [7])]

/-- A key distinct from the all-zero key, equal on the first 16 bytes. -/
def k2bytes : List Nat := List.replicate 31 0 ++ [1]

/-- C9: `Table::insert` does not terminate on every pair of distinct
keys.  After inserting the all-zero key (a reachable state, second
conjunct), inserting the distinct key `k2bytes` — equal in the 16 key
bytes that `insert_helper` consumes — returns no result for any fuel:
the recursion splits the colliding leaf forever. -/
theorem C9_insert_nonterminating :
    List.replicate 32 0 ≠ k2bytes ∧
    (∀ ld, tableInsertF ld 5 emptyRoot (List.replicate 32 0) [7] = some root1) ∧
    (∀ ld fuel, tableInsertF ld fuel root1 k2bytes [8] = none) := by
  refine ⟨by decide, fun ld => rfl, fun ld fuel => ?_⟩
  rcases fuel with _ | fuel1
  · rfl
  rcases fuel1 with _ | m
  · rfl
  show (insertHelperF ld (m + 1) 1 (RecordT.Data (List.replicate 32 0) [7]) 0 k2bytes [8]).map
    (fun c => RecordT.HamtNode true 1
      ([Sum.inl (RecordT.Data (List.replicate 32 0) [7])].set 0 (Sum.inl c))) = none
  rw [insertHelper_data_loop ld (m + 1) 1 (List.replicate 32 0) [7] k2bytes [8] rfl rfl]
  rfl

end Meshanina
